import Mathlib

/-!
Shallow embedding of the read-classification pipeline of the
Nanopore_for_gene_array repository (directory NSA/): the streaming FASTQ
parser, the two best-hit selectors, the repeat-size estimator, and the
bounds pass of the dot-plot converter.

Modelling conventions:
* Python integers are modelled as Int; read coordinates and MAPQ values,
  which the mappy/minimap2 binding always reports as non-negative machine
  integers, are modelled as Nat.
* The external aligner (mappy) is modelled as a function from a read
  sequence to the list of candidate hits it reports, exactly as the spec
  treats it (an external collaborator producing a complete candidate set).
* The regular-expression engine used by the dot-plot converter is modelled
  as a function from an input line to the optional tuple of captured
  coordinate groups.
* File I/O is modelled by lists: the input file is the list of its lines
  (as returned by readline, hence a line is empty only at end of file),
  and the output file is the list of records written to it, in order.
-/

/-- A candidate alignment hit as produced by mappy for one read: the
half-open query interval [q_st, q_en) on the read, and the mapping
quality (MAPQ).  mappy reports all three as non-negative integers. -/
structure Hit where
  q_st : Nat
  q_en : Nat
  mapq : Nat
deriving DecidableEq

/-- Python str.strip applied to a line: drop leading and trailing
whitespace characters. -/
def pyStrip (s : String) : String :=
  String.mk (((s.toList.dropWhile Char.isWhitespace).reverse.dropWhile Char.isWhitespace).reverse)

/-- Python `line.strip().split()[0]`: the first whitespace-delimited token
of the line.  Stripping and then splitting on runs of whitespace and
taking the first piece is the same as dropping leading whitespace and
taking the longest whitespace-free prefix of what remains (with the empty
string as the degenerate value on all-whitespace input, a case the source
never reaches because it is guarded by the record-marker test). -/
def pyFirstTokenWs (s : String) : String :=
  String.mk ((s.toList.dropWhile Char.isWhitespace).takeWhile (fun c => !c.isWhitespace))

/-- Python `line.rstrip("\n")` on a list of characters: drop the trailing
run of newline characters. -/
def rstripNl : List Char → List Char
  | [] => []
  | c :: cs =>
    match rstripNl cs with
    | [] => if c == '\n' then [] else [c]
    | r => c :: r

/-- Python `line.rstrip("\n").split("\t", 1)[0]`: the line with trailing
newlines removed, truncated at the first tab. -/
def pyFirstFieldTab (s : String) : String :=
  String.mk ((rstripNl s.toList).takeWhile (fun c => !(c == '\t')))

/-- Python `line.startswith("@")`: the first character is the FASTQ record
marker. -/
def startswith_at (s : String) : Bool :=
  match s.toList with
  | [] => false
  | c :: _ => c == '@'

/-- parse_fastq of Extract_tgt_flanks_mappy.py and Target_seq_extraction.py
(the two copies are identical), over the list of lines of the input file.
Four lines are consumed per record; an empty string stands for a readline
at end of file, so a missing header or a missing body line ends the
stream; a block whose header does not start with the record marker is
skipped; otherwise the record is the first whitespace token of the header
paired with the stripped sequence line. -/
def parse_fastq : List String → List (String × String)
  | id_line :: seq_line :: plus_line :: qual_line :: rest =>
    if id_line = "" then []
    else if seq_line = "" ∨ plus_line = "" ∨ qual_line = "" then []
    else if startswith_at id_line then
      (pyFirstTokenWs id_line, pyStrip seq_line) :: parse_fastq rest
    else parse_fastq rest
  | _ => []

namespace ExtractTgtOnly

/-- parse_fastq of Extract_tgt_only_mappy.py: same block structure as the
whitespace variant, but the read id is the header with trailing newlines
removed and truncated at the first tab. -/
def parse_fastq : List String → List (String × String)
  | id_line :: seq_line :: plus_line :: qual_line :: rest =>
    if id_line = "" then []
    else if seq_line = "" ∨ plus_line = "" ∨ qual_line = "" then []
    else if startswith_at id_line then
      (pyFirstFieldTab id_line, pyStrip seq_line) :: parse_fastq rest
    else parse_fastq rest
  | _ => []

end ExtractTgtOnly

namespace ExtractTgtFlanks

/-- Aligned span on the read: Python `a.q_en - a.q_st` (int subtraction,
so it may be negative for an ill-formed hit). -/
def span (a : Hit) : Int := (a.q_en : Int) - (a.q_st : Int)

/-- The score tuple `(a.mapq, span)` kept by best_hit_q_coords. -/
def score (a : Hit) : Int × Int := ((a.mapq : Int), span a)

/-- Python lexicographic comparison `x > y` on int pairs: first components
first, second components as tiebreak. -/
def pairGt (x y : Int × Int) : Prop :=
  y.1 < x.1 ∨ (x.1 = y.1 ∧ y.2 < x.2)

instance (x y : Int × Int) : Decidable (pairGt x y) :=
  inferInstanceAs (Decidable (_ ∨ _))

/-- The filter `a.mapq >= min_mapq and span >= min_span` of
best_hit_q_coords in Extract_tgt_flanks_mappy.py. -/
def qualifies (min_mapq min_span : Int) (a : Hit) : Prop :=
  min_mapq ≤ (a.mapq : Int) ∧ min_span ≤ span a

instance (Q S : Int) (a : Hit) : Decidable (qualifies Q S a) :=
  inferInstanceAs (Decidable (_ ∧ _))

/-- One iteration of the loop of best_hit_q_coords: keep the running best
query interval and its score, replacing them only when the candidate
passes both thresholds and its score is strictly greater (Python tuple
comparison) than the running score. -/
def step (Q S : Int) (st : Option (Nat × Nat) × (Int × Int)) (a : Hit) :
    Option (Nat × Nat) × (Int × Int) :=
  if qualifies Q S a then
    if pairGt (score a) st.2 then (some (a.q_st, a.q_en), score a) else st
  else st

/-- best_hit_q_coords of Extract_tgt_flanks_mappy.py: fold the loop over
the candidate list, starting from best = None and best_score = (-1, -1),
and return the best query interval. -/
def best_hit_q_coords (hits : List Hit) (Q S : Int) : Option (Nat × Nat) :=
  (hits.foldl (step Q S) (none, (-1, -1))).1

theorem pairGt_irrefl (x : Int × Int) : ¬ pairGt x x := by
  rcases x with ⟨a, b⟩
  simp [pairGt]

theorem pairGt_trans {x y z : Int × Int} (h1 : pairGt x y) (h2 : pairGt y z) :
    pairGt x z := by
  rcases x with ⟨a, b⟩; rcases y with ⟨c, d⟩; rcases z with ⟨e, f⟩
  simp only [pairGt] at h1 h2 ⊢
  omega

theorem pairGt_of_gt_of_not_gt {x y z : Int × Int} (h1 : pairGt x y)
    (h2 : ¬ pairGt z y) : pairGt x z := by
  rcases x with ⟨a, b⟩; rcases y with ⟨c, d⟩; rcases z with ⟨e, f⟩
  simp only [pairGt] at h1 h2 ⊢
  omega

/-- Every hit scores strictly above the initial sentinel (-1, -1), because
MAPQ is a non-negative integer. -/
theorem score_pairGt_init (a : Hit) : pairGt (score a) (-1, -1) := by
  simp only [pairGt, score]
  left
  have := Int.natCast_nonneg a.mapq
  omega

/-- Loop invariant of best_hit_q_coords after consuming the prefix `pre`
of the candidate list: either nothing qualified yet and the state is still
the initial one, or the state records the first candidate of `pre`
achieving the maximal score among the qualifying candidates of `pre`. -/
def Inv (Q S : Int) (pre : List Hit) (st : Option (Nat × Nat) × (Int × Int)) : Prop :=
  (st.1 = none ∧ st.2 = (-1, -1) ∧ ∀ h ∈ pre, ¬ qualifies Q S h) ∨
  (∃ p b s, pre = p ++ b :: s ∧ qualifies Q S b ∧
    st.1 = some (b.q_st, b.q_en) ∧ st.2 = score b ∧
    (∀ h ∈ pre, qualifies Q S h → ¬ pairGt (score h) (score b)) ∧
    (∀ h ∈ p, qualifies Q S h → pairGt (score b) (score h)))

theorem inv_step {Q S : Int} {pre : List Hit} {st} (hinv : Inv Q S pre st)
    (a : Hit) : Inv Q S (pre ++ [a]) (step Q S st a) := by
  unfold step
  by_cases hq : qualifies Q S a
  · rw [if_pos hq]
    by_cases hgt : pairGt (score a) st.2
    · rw [if_pos hgt]
      right
      refine ⟨pre, a, [], by simp, hq, rfl, rfl, ?_, ?_⟩
      · intro h hm hqh
        rcases List.mem_append.1 hm with hm | hm
        · rcases hinv with ⟨_, hsc, hall⟩ | ⟨p, b, s, _, _, _, hsc, hmax, _⟩
          · exact absurd hqh (hall h hm)
          · rw [hsc] at hgt
            intro hcon
            exact hmax h hm hqh (pairGt_trans hcon hgt)
        · have he : h = a := by simpa using hm
          subst he
          exact pairGt_irrefl _
      · intro h hm hqh
        rcases hinv with ⟨_, hsc, hall⟩ | ⟨p, b, s, _, _, _, hsc, hmax, _⟩
        · exact absurd hqh (hall h hm)
        · rw [hsc] at hgt
          exact pairGt_of_gt_of_not_gt hgt (hmax h hm hqh)
    · rw [if_neg hgt]
      rcases hinv with ⟨hbest, hsc, hall⟩ | ⟨p, b, s, hsplit, hqb, hbest, hsc, hmax, hstrict⟩
      · rw [hsc] at hgt
        exact absurd (score_pairGt_init a) hgt
      · right
        refine ⟨p, b, s ++ [a], by rw [hsplit]; simp, hqb, hbest, hsc, ?_, hstrict⟩
        intro h hm hqh
        rcases List.mem_append.1 hm with hm | hm
        · exact hmax h hm hqh
        · have he : h = a := by simpa using hm
          subst he
          rw [hsc] at hgt
          exact hgt
  · rw [if_neg hq]
    rcases hinv with ⟨hbest, hsc, hall⟩ | ⟨p, b, s, hsplit, hqb, hbest, hsc, hmax, hstrict⟩
    · left
      refine ⟨hbest, hsc, ?_⟩
      intro h hm
      rcases List.mem_append.1 hm with hm | hm
      · exact hall h hm
      · have he : h = a := by simpa using hm
        subst he
        exact hq
    · right
      refine ⟨p, b, s ++ [a], by rw [hsplit]; simp, hqb, hbest, hsc, ?_, hstrict⟩
      intro h hm hqh
      rcases List.mem_append.1 hm with hm | hm
      · exact hmax h hm hqh
      · have he : h = a := by simpa using hm
        subst he
        exact absurd hqh hq

theorem inv_foldl {Q S : Int} : ∀ (l pre : List Hit) (st),
    Inv Q S pre st → Inv Q S (pre ++ l) (l.foldl (step Q S) st) := by
  intro l
  induction l with
  | nil => intro pre st h; simpa using h
  | cons a l ih =>
    intro pre st h
    rw [List.foldl_cons, show pre ++ a :: l = (pre ++ [a]) ++ l from by simp]
    exact ih (pre ++ [a]) (step Q S st a) (inv_step h a)

/-- The invariant established on the whole candidate list. -/
theorem best_hit_inv (hits : List Hit) (Q S : Int) :
    Inv Q S hits (hits.foldl (step Q S) (none, (-1, -1))) := by
  have h0 : Inv Q S [] (none, (-1, -1)) := by
    left
    exact ⟨rfl, rfl, by simp⟩
  simpa using inv_foldl hits [] (none, (-1, -1)) h0

end ExtractTgtFlanks

namespace TargetSeqExtraction

/-- The filter `a.mapq >= min_mapq and a.q_en > a.q_st` of
best_hit_q_coords in Target_seq_extraction.py: quality above the
threshold and positive span, with no minimum-span threshold. -/
def qualifies (min_mapq : Int) (a : Hit) : Prop :=
  min_mapq ≤ (a.mapq : Int) ∧ a.q_st < a.q_en

instance (Q : Int) (a : Hit) : Decidable (qualifies Q a) :=
  inferInstanceAs (Decidable (_ ∧ _))

/-- One iteration of the loop of best_hit_q_coords in
Target_seq_extraction.py: the running best is replaced only when the
candidate passes the filter and its MAPQ is strictly greater than the
running best MAPQ. -/
def step (Q : Int) (st : Option (Nat × Nat) × Int) (a : Hit) :
    Option (Nat × Nat) × Int :=
  if qualifies Q a then
    if st.2 < (a.mapq : Int) then (some (a.q_st, a.q_en), (a.mapq : Int)) else st
  else st

/-- best_hit_q_coords of Target_seq_extraction.py: fold the loop over the
candidate list, starting from best = None and best_mapq = -1, and return
the best query interval. -/
def best_hit_q_coords (hits : List Hit) (Q : Int) : Option (Nat × Nat) :=
  (hits.foldl (step Q) (none, -1)).1

/-- Loop invariant of the relaxed selector after consuming the prefix
`pre`: either nothing qualified yet, or the state records the first
candidate of `pre` achieving the maximal MAPQ among the qualifying
candidates of `pre`. -/
def Inv (Q : Int) (pre : List Hit) (st : Option (Nat × Nat) × Int) : Prop :=
  (st.1 = none ∧ st.2 = -1 ∧ ∀ h ∈ pre, ¬ qualifies Q h) ∨
  (∃ p b s, pre = p ++ b :: s ∧ qualifies Q b ∧
    st.1 = some (b.q_st, b.q_en) ∧ st.2 = (b.mapq : Int) ∧
    (∀ h ∈ pre, qualifies Q h → (h.mapq : Int) ≤ (b.mapq : Int)) ∧
    (∀ h ∈ p, qualifies Q h → (h.mapq : Int) < (b.mapq : Int)))

theorem inv_step_t {Q : Int} {pre : List Hit} {st} (hinv : Inv Q pre st)
    (a : Hit) : Inv Q (pre ++ [a]) (step Q st a) := by
  unfold step
  by_cases hq : qualifies Q a
  · rw [if_pos hq]
    by_cases hgt : st.2 < (a.mapq : Int)
    · rw [if_pos hgt]
      right
      refine ⟨pre, a, [], by simp, hq, rfl, rfl, ?_, ?_⟩
      · intro h hm hqh
        rcases List.mem_append.1 hm with hm | hm
        · rcases hinv with ⟨_, hsc, hall⟩ | ⟨p, b, s, _, _, _, hsc, hmax, _⟩
          · exact absurd hqh (hall h hm)
          · rw [hsc] at hgt
            have := hmax h hm hqh
            omega
        · have he : h = a := by simpa using hm
          subst he
          omega
      · intro h hm hqh
        rcases hinv with ⟨_, hsc, hall⟩ | ⟨p, b, s, _, _, _, hsc, hmax, _⟩
        · exact absurd hqh (hall h hm)
        · rw [hsc] at hgt
          have := hmax h hm hqh
          omega
    · rw [if_neg hgt]
      rcases hinv with ⟨hbest, hsc, hall⟩ | ⟨p, b, s, hsplit, hqb, hbest, hsc, hmax, hstrict⟩
      · rw [hsc] at hgt
        have := Int.natCast_nonneg a.mapq
        omega
      · right
        refine ⟨p, b, s ++ [a], by rw [hsplit]; simp, hqb, hbest, hsc, ?_, hstrict⟩
        intro h hm hqh
        rcases List.mem_append.1 hm with hm | hm
        · exact hmax h hm hqh
        · have he : h = a := by simpa using hm
          subst he
          rw [hsc] at hgt
          omega
  · rw [if_neg hq]
    rcases hinv with ⟨hbest, hsc, hall⟩ | ⟨p, b, s, hsplit, hqb, hbest, hsc, hmax, hstrict⟩
    · left
      refine ⟨hbest, hsc, ?_⟩
      intro h hm
      rcases List.mem_append.1 hm with hm | hm
      · exact hall h hm
      · have he : h = a := by simpa using hm
        subst he
        exact hq
    · right
      refine ⟨p, b, s ++ [a], by rw [hsplit]; simp, hqb, hbest, hsc, ?_, hstrict⟩
      intro h hm hqh
      rcases List.mem_append.1 hm with hm | hm
      · exact hmax h hm hqh
      · have he : h = a := by simpa using hm
        subst he
        exact absurd hqh hq

theorem inv_foldl_t {Q : Int} : ∀ (l pre : List Hit) (st),
    Inv Q pre st → Inv Q (pre ++ l) (l.foldl (step Q) st) := by
  intro l
  induction l with
  | nil => intro pre st h; simpa using h
  | cons a l ih =>
    intro pre st h
    rw [List.foldl_cons, show pre ++ a :: l = (pre ++ [a]) ++ l from by simp]
    exact ih (pre ++ [a]) (step Q st a) (inv_step_t h a)

/-- The invariant established on the whole candidate list. -/
theorem best_hit_inv_t (hits : List Hit) (Q : Int) :
    Inv Q hits (hits.foldl (step Q) (none, -1)) := by
  have h0 : Inv Q [] ((none : Option (Nat × Nat)), (-1 : Int)) := by
    left
    exact ⟨rfl, rfl, by simp⟩
  simpa using inv_foldl_t hits [] (none, -1) h0

/-- The repeat-size estimate computed in main of Target_seq_extraction.py:
`min(abs(u0-d0), abs(u0-d1), abs(u1-d0), abs(u1-d1))`, with Python's min
of a 4-tuple folded from the left. -/
def repeatsize (u0 u1 d0 d1 : Int) : Int :=
  min (min (min |u0 - d0| |u0 - d1|) |u1 - d0|) |u1 - d1|

/-- The three aligners of Target_seq_extraction.py (upstream flank,
downstream flank, target), each modelled as the complete candidate set
mappy returns for a given read sequence. -/
structure Aligners where
  up : String → List Hit
  down : String → List Hit
  tgt : String → List Hit

/-- The mutable state of main in Target_seq_extraction.py: the two
counters and the data rows appended to the output file (after the header
row), in output order. -/
structure RunState where
  count_in : Nat
  count_pass : Nat
  rows : List (Int × String × String)
deriving DecidableEq

/-- The body of the read loop of main in Target_seq_extraction.py:
increment the input counter, query upstream flank, downstream flank and
target in that order, giving up at the first absent result; when all
three are present, append the output row and increment the pass
counter. -/
def processRead (al : Aligners) (Q : Int) (st : RunState) (r : String × String) :
    RunState :=
  let st1 : RunState := { st with count_in := st.count_in + 1 }
  match best_hit_q_coords (al.up r.2) Q with
  | none => st1
  | some (u0, u1) =>
    match best_hit_q_coords (al.down r.2) Q with
    | none => st1
    | some (d0, d1) =>
      match best_hit_q_coords (al.tgt r.2) Q with
      | none => st1
      | some _ =>
        { st1 with
          count_pass := st1.count_pass + 1,
          rows := st1.rows ++ [(repeatsize (u0 : Int) (u1 : Int) (d0 : Int) (d1 : Int), r.1, r.2)] }

/-- main of Target_seq_extraction.py, from the parsed input stream to the
final state: fold the read loop over the records of the FASTQ file,
starting with both counters at zero and no data rows. -/
def main_loop (al : Aligners) (Q : Int) (lines : List String) : RunState :=
  (parse_fastq lines).foldl (processRead al Q) ⟨0, 0, []⟩

/-- A read passes exactly when all three queries return a present
result. -/
def passes (al : Aligners) (Q : Int) (r : String × String) : Bool :=
  (best_hit_q_coords (al.up r.2) Q).isSome &&
  (best_hit_q_coords (al.down r.2) Q).isSome &&
  (best_hit_q_coords (al.tgt r.2) Q).isSome

theorem processRead_count_in (al : Aligners) (Q : Int) (st : RunState)
    (r : String × String) : (processRead al Q st r).count_in = st.count_in + 1 := by
  rcases hu : best_hit_q_coords (al.up r.2) Q with _ | ⟨u0, u1⟩
  · simp [processRead, hu]
  · rcases hd : best_hit_q_coords (al.down r.2) Q with _ | ⟨d0, d1⟩
    · simp [processRead, hu, hd]
    · rcases ht : best_hit_q_coords (al.tgt r.2) Q with _ | t
      · simp [processRead, hu, hd, ht]
      · simp [processRead, hu, hd, ht]

theorem processRead_count_pass (al : Aligners) (Q : Int) (st : RunState)
    (r : String × String) :
    (processRead al Q st r).count_pass =
      st.count_pass + (if passes al Q r then 1 else 0) := by
  rcases hu : best_hit_q_coords (al.up r.2) Q with _ | ⟨u0, u1⟩
  · simp [processRead, passes, hu]
  · rcases hd : best_hit_q_coords (al.down r.2) Q with _ | ⟨d0, d1⟩
    · simp [processRead, passes, hu, hd]
    · rcases ht : best_hit_q_coords (al.tgt r.2) Q with _ | t
      · simp [processRead, passes, hu, hd, ht]
      · simp [processRead, passes, hu, hd, ht]

theorem foldl_count_in (al : Aligners) (Q : Int) :
    ∀ (rs : List (String × String)) (st : RunState),
      (rs.foldl (processRead al Q) st).count_in = st.count_in + rs.length := by
  intro rs
  induction rs with
  | nil => intro st; simp
  | cons r rs ih =>
    intro st
    rw [List.foldl_cons, ih (processRead al Q st r), processRead_count_in]
    simp
    omega

theorem foldl_count_pass (al : Aligners) (Q : Int) :
    ∀ (rs : List (String × String)) (st : RunState),
      (rs.foldl (processRead al Q) st).count_pass =
        st.count_pass + (rs.filter (passes al Q)).length := by
  intro rs
  induction rs with
  | nil => intro st; simp
  | cons r rs ih =>
    intro st
    rw [List.foldl_cons, ih (processRead al Q st r), processRead_count_pass]
    by_cases hp : passes al Q r
    · simp [List.filter_cons, hp]
      omega
    · simp [List.filter_cons, hp]

end TargetSeqExtraction

namespace ExtractTgtOnly

/-- One iteration of the loop of has_hit in Extract_tgt_only_mappy.py:
record the MAPQ of a candidate with positive span whenever it is strictly
greater than the running best. -/
def stepm (m : Int) (a : Hit) : Int :=
  if a.q_st < a.q_en ∧ m < (a.mapq : Int) then (a.mapq : Int) else m

/-- The value of best_mapq computed by has_hit over the candidate list,
starting from the sentinel -1. -/
def best_mapq (hits : List Hit) : Int := hits.foldl stepm (-1)

/-- has_hit of Extract_tgt_only_mappy.py: `best_mapq >= min_mapq`. -/
def has_hit (hits : List Hit) (min_mapq : Int) : Bool :=
  decide (min_mapq ≤ best_mapq hits)

/-- Loop invariant of has_hit: the running value is the sentinel -1 while
no candidate with positive span has been seen, and otherwise it is the
maximal MAPQ of the candidates with positive span seen so far. -/
def InvM (pre : List Hit) (m : Int) : Prop :=
  (m = -1 ∧ ∀ h ∈ pre, ¬ h.q_st < h.q_en) ∨
  (∃ b ∈ pre, b.q_st < b.q_en ∧ m = (b.mapq : Int) ∧
    ∀ h ∈ pre, h.q_st < h.q_en → (h.mapq : Int) ≤ m)

theorem invM_step {pre : List Hit} {m : Int} (hinv : InvM pre m) (a : Hit) :
    InvM (pre ++ [a]) (stepm m a) := by
  unfold stepm
  by_cases hc : a.q_st < a.q_en ∧ m < (a.mapq : Int)
  · rw [if_pos hc]
    right
    refine ⟨a, by simp, hc.1, rfl, ?_⟩
    intro h hm hpos
    rcases List.mem_append.1 hm with hm | hm
    · rcases hinv with ⟨hm1, hall⟩ | ⟨b, hbm, hbpos, hbeq, hmax⟩
      · exact absurd hpos (hall h hm)
      · have := hmax h hm hpos
        omega
    · have he : h = a := by simpa using hm
      subst he
      omega
  · rw [if_neg hc]
    rcases hinv with ⟨hm1, hall⟩ | ⟨b, hbm, hbpos, hbeq, hmax⟩
    · by_cases hpos : a.q_st < a.q_en
      · right
        refine ⟨a, by simp, hpos, ?_, ?_⟩
        · have := Int.natCast_nonneg a.mapq
          omega
        · intro h hm hp
          rcases List.mem_append.1 hm with hm | hm
          · exact absurd hp (hall h hm)
          · have he : h = a := by simpa using hm
            subst he
            have := Int.natCast_nonneg h.mapq
            omega
      · left
        refine ⟨hm1, ?_⟩
        intro h hm
        rcases List.mem_append.1 hm with hm | hm
        · exact hall h hm
        · have he : h = a := by simpa using hm
          subst he
          exact hpos
    · right
      refine ⟨b, List.mem_append.2 (Or.inl hbm), hbpos, hbeq, ?_⟩
      intro h hm hpos
      rcases List.mem_append.1 hm with hm | hm
      · exact hmax h hm hpos
      · have he : h = a := by simpa using hm
        subst he
        omega

theorem invM_foldl : ∀ (l pre : List Hit) (m : Int),
    InvM pre m → InvM (pre ++ l) (l.foldl stepm m) := by
  intro l
  induction l with
  | nil => intro pre m h; simpa using h
  | cons a l ih =>
    intro pre m h
    rw [List.foldl_cons, show pre ++ a :: l = (pre ++ [a]) ++ l from by simp]
    exact ih (pre ++ [a]) (stepm m a) (invM_step h a)

/-- The invariant established on the whole candidate list. -/
theorem best_mapq_inv (hits : List Hit) : InvM hits (best_mapq hits) := by
  have h0 : InvM [] (-1) := by
    left
    exact ⟨rfl, by simp⟩
  simpa using invM_foldl hits [] (-1) h0

end ExtractTgtOnly

namespace ExtractTgtFlanks

/-- Python `seq[:n]` on a read sequence. -/
def pyTake (s : String) (n : Nat) : String := String.mk (s.toList.take n)

/-- Python `seq[n:]` on a read sequence. -/
def pyDrop (s : String) (n : Nat) : String := String.mk (s.toList.drop n)

/-- The FASTA records written by main of Extract_tgt_flanks_mappy.py for
one accepted read with winning interval [q_st, q_en): the upstream
subsequence `seq[:q_st]` labelled `rid_up` and the downstream subsequence
`seq[q_en:]` labelled `rid_down`, each written only when its length
reaches min_flank_len. -/
def flank_records (rid seq : String) (q_st q_en : Nat) (min_flank_len : Int) :
    List (String × String) :=
  (if min_flank_len ≤ ((pyTake seq q_st).length : Int) then
     [(rid ++ "_up", pyTake seq q_st)] else []) ++
  (if min_flank_len ≤ ((pyDrop seq q_en).length : Int) then
     [(rid ++ "_down", pyDrop seq q_en)] else [])

/-- The body of the read loop of main in Extract_tgt_flanks_mappy.py,
restricted to what it writes for one read: nothing when the strict
selector rejects the read, and the flank records otherwise. -/
def process_read (aln : String → List Hit) (Q S F : Int) (rid seq : String) :
    List (String × String) :=
  match best_hit_q_coords (aln seq) Q S with
  | none => []
  | some (u, v) => flank_records rid seq u v F

/-- Record labels of the two flanks of one read differ. -/
theorem up_ne_down (rid : String) : rid ++ "_up" ≠ rid ++ "_down" := by
  intro h
  have h2 : rid.data ++ ("_up" : String).data = rid.data ++ ("_down" : String).data :=
    congrArg String.data h
  have h3 := List.append_cancel_left h2
  exact absurd h3 (by decide)

end ExtractTgtFlanks

namespace YassYop

/-- The loop of read_bounds in yass_yop_to_svg.py over the lines of the
.yop file, with the regular-expression engine abstracted as a match
function returning the four captured coordinates of an alignment-bounds
line (the strand group is not used by read_bounds).  A non-matching line
is skipped; a matching line raises the two running maxima and the count,
and the loop stops once the count reaches max_al. -/
def read_bounds_loop (m : String → Option (Nat × Nat × Nat × Nat)) (max_al : Int) :
    List String → Nat × Nat × Nat → Nat × Nat × Nat
  | [], st => st
  | line :: rest, (qmax, rmax, n) =>
    match m line with
    | none => read_bounds_loop m max_al rest (qmax, rmax, n)
    | some (q1, q2, r1, r2) =>
      let qmax' := max qmax (max q1 q2)
      let rmax' := max rmax (max r1 r2)
      let n' := n + 1
      if max_al ≤ (n' : Int) then (qmax', rmax', n')
      else read_bounds_loop m max_al rest (qmax', rmax', n')

/-- read_bounds of yass_yop_to_svg.py: run the loop from (0, 0, 0). -/
def read_bounds (m : String → Option (Nat × Nat × Nat × Nat))
    (lines : List String) (max_al : Int) : Nat × Nat × Nat :=
  read_bounds_loop m max_al lines (0, 0, 0)

/-- The larger of the two query coordinates captured on a line. -/
def qOf (t : Nat × Nat × Nat × Nat) : Nat := max t.1 t.2.1

/-- The larger of the two reference coordinates captured on a line. -/
def rOf (t : Nat × Nat × Nat × Nat) : Nat := max t.2.2.1 t.2.2.2

theorem read_bounds_loop_skip (m : String → Option (Nat × Nat × Nat × Nat))
    (max_al : Int) (line : String) (rest : List String)
    (st : Nat × Nat × Nat) (h : m line = none) :
    read_bounds_loop m max_al (line :: rest) st = read_bounds_loop m max_al rest st := by
  obtain ⟨q, r, n⟩ := st
  simp [read_bounds_loop, h]

theorem read_bounds_loop_eq (m : String → Option (Nat × Nat × Nat × Nat))
    (max_al : Int) :
    ∀ (lines : List String) (q r n : Nat),
      ((n : Int) + ((lines.filterMap m).length : Int)) ≤ max_al →
      read_bounds_loop m max_al lines (q, r, n) =
        (((lines.filterMap m).map qOf).foldl max q,
         ((lines.filterMap m).map rOf).foldl max r,
         n + (lines.filterMap m).length) := by
  intro lines
  induction lines with
  | nil => intro q r n h; simp [read_bounds_loop]
  | cons line rest ih =>
    intro q r n h
    rcases hm : m line with _ | t
    · rw [read_bounds_loop_skip m max_al line rest _ hm]
      rw [List.filterMap_cons_none hm] at h ⊢
      exact ih q r n h
    · rw [List.filterMap_cons_some hm] at h ⊢
      obtain ⟨q1, q2, r1, r2⟩ := t
      simp only [read_bounds_loop, hm]
      by_cases hstop : max_al ≤ ((n + 1 : Nat) : Int)
      · rw [if_pos hstop]
        have hlen : (rest.filterMap m).length = 0 := by
          simp only [List.length_cons] at h
          omega
        have hnil : rest.filterMap m = [] := List.length_eq_zero.1 hlen
        rw [hnil]
        simp [qOf, rOf]
      · rw [if_neg hstop]
        rw [ih (max q (max q1 q2)) (max r (max r1 r2)) (n + 1)
          (by simp only [List.length_cons] at h; push_cast at h ⊢; omega)]
        simp [qOf, rOf]
        omega

end YassYop

/-- C1: best_hit_q_coords in Extract_tgt_flanks_mappy.py (strict mode)
returns None exactly when no candidate passes both the quality threshold
Qmin and the span threshold Smin, and otherwise returns the query interval
of a qualifying candidate whose (quality, span) pair is maximal among all
qualifying candidates under Python's lexicographic tuple comparison; in
particular, between qualifying candidates of equal quality the selected
one has the larger span. -/
theorem best_hit_strict_selection (hits : List Hit) (Qmin Smin : Int) :
    (ExtractTgtFlanks.best_hit_q_coords hits Qmin Smin = none ↔
      ∀ h ∈ hits, ¬ ExtractTgtFlanks.qualifies Qmin Smin h) ∧
    (∀ u v, ExtractTgtFlanks.best_hit_q_coords hits Qmin Smin = some (u, v) →
      ∃ b ∈ hits, ExtractTgtFlanks.qualifies Qmin Smin b ∧ b.q_st = u ∧ b.q_en = v ∧
        (∀ h ∈ hits, ExtractTgtFlanks.qualifies Qmin Smin h →
          ¬ ExtractTgtFlanks.pairGt (ExtractTgtFlanks.score h) (ExtractTgtFlanks.score b)) ∧
        (∀ h ∈ hits, ExtractTgtFlanks.qualifies Qmin Smin h → h.mapq = b.mapq →
          ExtractTgtFlanks.span h ≤ ExtractTgtFlanks.span b)) := by
  have hinv := ExtractTgtFlanks.best_hit_inv hits Qmin Smin
  constructor
  · constructor
    · intro hnone
      rcases hinv with ⟨_, _, hall⟩ | ⟨p, b, s, _, _, hbest, _, _, _⟩
      · exact hall
      · rw [ExtractTgtFlanks.best_hit_q_coords, hbest] at hnone
        cases hnone
    · intro hall
      rcases hinv with ⟨hn, _, _⟩ | ⟨p, b, s, hsplit, hqb, _, _, _, _⟩
      · exact hn
      · exact absurd hqb (hall b (by rw [hsplit]; simp))
  · intro u v hsome
    rcases hinv with ⟨hn, _, _⟩ | ⟨p, b, s, hsplit, hqb, hbest, _, hmax, _⟩
    · rw [ExtractTgtFlanks.best_hit_q_coords, hn] at hsome
      cases hsome
    · rw [ExtractTgtFlanks.best_hit_q_coords, hbest] at hsome
      have hb := Prod.ext_iff.1 (Option.some.inj hsome)
      refine ⟨b, by rw [hsplit]; simp, hqb, hb.1, hb.2, hmax, ?_⟩
      intro h hm hqh heq
      by_contra hc
      push_neg at hc
      refine hmax h hm hqh (Or.inr ⟨?_, ?_⟩)
      · simp [ExtractTgtFlanks.score, heq]
      · simpa [ExtractTgtFlanks.score] using hc

/-- Witness for best_hit_strict_selection: on two qualifying candidates of
equal quality (spans 4 and 8), the selector returns the larger-span
candidate's interval, which is maximal among the qualifying ones. -/
theorem best_hit_strict_selection_witness :
    ∃ b ∈ [Hit.mk 0 4 30, Hit.mk 2 10 30],
      ExtractTgtFlanks.qualifies 10 1 b ∧ b.q_st = 2 ∧ b.q_en = 10 ∧
        (∀ h ∈ [Hit.mk 0 4 30, Hit.mk 2 10 30], ExtractTgtFlanks.qualifies 10 1 h →
          ¬ ExtractTgtFlanks.pairGt (ExtractTgtFlanks.score h) (ExtractTgtFlanks.score b)) ∧
        (∀ h ∈ [Hit.mk 0 4 30, Hit.mk 2 10 30], ExtractTgtFlanks.qualifies 10 1 h →
          h.mapq = b.mapq → ExtractTgtFlanks.span h ≤ ExtractTgtFlanks.span b) :=
  (best_hit_strict_selection [Hit.mk 0 4 30, Hit.mk 2 10 30] 10 1).2 2 10 (by decide)

/-- C10: in both selection modes ties are broken by arrival order in
favour of the earliest candidate: whenever a selector returns an interval,
the candidate list splits as p ++ b :: s where b is a qualifying candidate
carrying that interval, b's score (respectively MAPQ) is maximal among all
qualifying candidates, and every qualifying candidate of the prefix p
scores strictly below b — so the winner is the first candidate attaining
the maximum, because both loops update only on a strictly greater
comparison. -/
theorem selection_tie_first_candidate :
    (∀ (hits : List Hit) (Qmin Smin : Int) (c : Nat × Nat),
      ExtractTgtFlanks.best_hit_q_coords hits Qmin Smin = some c →
      ∃ p b s, hits = p ++ b :: s ∧ ExtractTgtFlanks.qualifies Qmin Smin b ∧
        c = (b.q_st, b.q_en) ∧
        (∀ h ∈ hits, ExtractTgtFlanks.qualifies Qmin Smin h →
          ¬ ExtractTgtFlanks.pairGt (ExtractTgtFlanks.score h) (ExtractTgtFlanks.score b)) ∧
        (∀ h ∈ p, ExtractTgtFlanks.qualifies Qmin Smin h →
          ExtractTgtFlanks.pairGt (ExtractTgtFlanks.score b) (ExtractTgtFlanks.score h))) ∧
    (∀ (hits : List Hit) (Qmin : Int) (c : Nat × Nat),
      TargetSeqExtraction.best_hit_q_coords hits Qmin = some c →
      ∃ p b s, hits = p ++ b :: s ∧ TargetSeqExtraction.qualifies Qmin b ∧
        c = (b.q_st, b.q_en) ∧
        (∀ h ∈ hits, TargetSeqExtraction.qualifies Qmin h → (h.mapq : Int) ≤ (b.mapq : Int)) ∧
        (∀ h ∈ p, TargetSeqExtraction.qualifies Qmin h → (h.mapq : Int) < (b.mapq : Int))) := by
  constructor
  · intro hits Qmin Smin c hsome
    have hinv := ExtractTgtFlanks.best_hit_inv hits Qmin Smin
    rcases hinv with ⟨hn, _, _⟩ | ⟨p, b, s, hsplit, hqb, hbest, _, hmax, hstrict⟩
    · rw [ExtractTgtFlanks.best_hit_q_coords, hn] at hsome
      cases hsome
    · rw [ExtractTgtFlanks.best_hit_q_coords, hbest] at hsome
      exact ⟨p, b, s, hsplit, hqb, (Option.some.inj hsome).symm, hmax, hstrict⟩
  · intro hits Qmin c hsome
    have hinv := TargetSeqExtraction.best_hit_inv_t hits Qmin
    rcases hinv with ⟨hn, _, _⟩ | ⟨p, b, s, hsplit, hqb, hbest, _, hmax, hstrict⟩
    · rw [TargetSeqExtraction.best_hit_q_coords, hn] at hsome
      cases hsome
    · rw [TargetSeqExtraction.best_hit_q_coords, hbest] at hsome
      exact ⟨p, b, s, hsplit, hqb, (Option.some.inj hsome).symm, hmax, hstrict⟩

/-- Witness for selection_tie_first_candidate: two candidates with equal
score (quality 30, span 4); the strict selector returns the interval of
the first one. -/
theorem selection_tie_first_candidate_witness :
    ∃ p b s, [Hit.mk 0 4 30, Hit.mk 5 9 30] = p ++ b :: s ∧
      ExtractTgtFlanks.qualifies 10 1 b ∧ ((0 : Nat), (4 : Nat)) = (b.q_st, b.q_en) ∧
      (∀ h ∈ [Hit.mk 0 4 30, Hit.mk 5 9 30], ExtractTgtFlanks.qualifies 10 1 h →
        ¬ ExtractTgtFlanks.pairGt (ExtractTgtFlanks.score h) (ExtractTgtFlanks.score b)) ∧
      (∀ h ∈ p, ExtractTgtFlanks.qualifies 10 1 h →
        ExtractTgtFlanks.pairGt (ExtractTgtFlanks.score b) (ExtractTgtFlanks.score h)) :=
  selection_tie_first_candidate.1 [Hit.mk 0 4 30, Hit.mk 5 9 30] 10 1 (0, 4) (by decide)

/-- C2 counterexample: with the integer threshold Qmin = -1 and an empty
candidate set, has_hit of Extract_tgt_only_mappy.py returns True although
no candidate with positive span and quality at least Qmin exists — the
sentinel best_mapq = -1 itself passes the threshold comparison.  So the
claim, quantified over all integer thresholds, fails. -/
theorem any_hit_negative_threshold_counterexample :
    ExtractTgtOnly.has_hit [] (-1) = true ∧
    ¬ ∃ h ∈ ([] : List Hit), h.q_st < h.q_en ∧ (-1 : Int) ≤ (h.mapq : Int) := by
  constructor
  · decide
  · simp

/-- C2 (amended): provided the quality threshold Qmin is non-negative
(for Qmin ≤ -1 the sentinel makes has_hit return True unconditionally),
has_hit in Extract_tgt_only_mappy.py returns True exactly when some
candidate has positive span and quality at least Qmin; and for every
integer Qmin, best_hit_q_coords in Target_seq_extraction.py returns None
exactly when no candidate has positive span and quality at least Qmin,
and otherwise returns the interval of such a candidate whose quality is
maximal among all candidates with positive span. -/
theorem any_hit_selection_amended (hits : List Hit) (Qmin : Int) :
    (0 ≤ Qmin →
      (ExtractTgtOnly.has_hit hits Qmin = true ↔
        ∃ h ∈ hits, h.q_st < h.q_en ∧ Qmin ≤ (h.mapq : Int))) ∧
    (TargetSeqExtraction.best_hit_q_coords hits Qmin = none ↔
      ∀ h ∈ hits, ¬ TargetSeqExtraction.qualifies Qmin h) ∧
    (∀ u v, TargetSeqExtraction.best_hit_q_coords hits Qmin = some (u, v) →
      ∃ b ∈ hits, TargetSeqExtraction.qualifies Qmin b ∧ b.q_st = u ∧ b.q_en = v ∧
        ∀ h ∈ hits, h.q_st < h.q_en → (h.mapq : Int) ≤ (b.mapq : Int)) := by
  refine ⟨?_, ?_, ?_⟩
  · intro hQ
    have hinv := ExtractTgtOnly.best_mapq_inv hits
    unfold ExtractTgtOnly.has_hit
    rw [decide_eq_true_eq]
    constructor
    · intro hle
      rcases hinv with ⟨hm1, hall⟩ | ⟨b, hbm, hbpos, hbeq, hmax⟩
      · rw [hm1] at hle
        omega
      · exact ⟨b, hbm, hbpos, hbeq ▸ hle⟩
    · rintro ⟨h, hm, hpos, hq⟩
      rcases hinv with ⟨hm1, hall⟩ | ⟨b, hbm, hbpos, hbeq, hmax⟩
      · exact absurd hpos (hall h hm)
      · exact le_trans hq (hmax h hm hpos)
  · have hinv := TargetSeqExtraction.best_hit_inv_t hits Qmin
    constructor
    · intro hnone
      rcases hinv with ⟨_, _, hall⟩ | ⟨p, b, s, _, _, hbest, _, _, _⟩
      · exact hall
      · rw [TargetSeqExtraction.best_hit_q_coords, hbest] at hnone
        cases hnone
    · intro hall
      rcases hinv with ⟨hn, _, _⟩ | ⟨p, b, s, hsplit, hqb, _, _, _, _⟩
      · exact hn
      · exact absurd hqb (hall b (by rw [hsplit]; simp))
  · intro u v hsome
    have hinv := TargetSeqExtraction.best_hit_inv_t hits Qmin
    rcases hinv with ⟨hn, _, _⟩ | ⟨p, b, s, hsplit, hqb, hbest, _, hmax, _⟩
    · rw [TargetSeqExtraction.best_hit_q_coords, hn] at hsome
      cases hsome
    · rw [TargetSeqExtraction.best_hit_q_coords, hbest] at hsome
      have hb := Prod.ext_iff.1 (Option.some.inj hsome)
      refine ⟨b, by rw [hsplit]; simp, hqb, hb.1, hb.2, ?_⟩
      intro h hm hpos
      by_cases hq : Qmin ≤ (h.mapq : Int)
      · exact hmax h hm ⟨hq, hpos⟩
      · have := hqb.1
        omega

/-- Witness for any_hit_selection_amended: with Qmin = 10, has_hit accepts
a candidate set holding one positive-span hit of quality 30, and the
relaxed selector returns that hit's interval, maximal in quality among
positive-span candidates. -/
theorem any_hit_selection_witness :
    (ExtractTgtOnly.has_hit [Hit.mk 2 9 30] 10 = true ↔
      ∃ h ∈ [Hit.mk 2 9 30], h.q_st < h.q_en ∧ (10 : Int) ≤ (h.mapq : Int)) ∧
    (∃ b ∈ [Hit.mk 2 9 30], TargetSeqExtraction.qualifies 10 b ∧ b.q_st = 2 ∧ b.q_en = 9 ∧
      ∀ h ∈ [Hit.mk 2 9 30], h.q_st < h.q_en → (h.mapq : Int) ≤ (b.mapq : Int)) :=
  ⟨(any_hit_selection_amended [Hit.mk 2 9 30] 10).1 (by decide),
   (any_hit_selection_amended [Hit.mk 2 9 30] 10).2.2 2 9 (by decide)⟩

/-- Rearrangement of a left-folded four-way minimum corresponding to
swapping the two halves of the argument list. -/
theorem min4_swap_first (a b c d : Int) :
    min (min (min a b) c) d = min (min (min c d) a) b := by
  rw [min_assoc (min a b) c d, min_assoc (min c d) a b]
  exact min_comm _ _

/-- Rearrangement of a left-folded four-way minimum corresponding to
swapping within each half of the argument list. -/
theorem min4_swap_second (a b c d : Int) :
    min (min (min a b) c) d = min (min (min b a) d) c := by
  rw [min_comm b a, min_assoc (min a b) c d, min_assoc (min a b) d c]
  rw [min_comm d c]

/-- C3: the repeat-size estimate of Target_seq_extraction.py equals the
minimum of the four absolute endpoint distances between the upstream and
downstream intervals, is a non-negative integer, is computed on any
geometry (in particular on the degenerate arrangement with the downstream
flank before the upstream flank), gives 4 on upstream [0,4) with
downstream [8,12), and is exactly the value written in the output row for
a read whose three queries are all present. -/
theorem repeatsize_min_of_distances :
    (∀ u0 u1 d0 d1 : Int,
      TargetSeqExtraction.repeatsize u0 u1 d0 d1 =
        min (min |u0 - d0| |u0 - d1|) (min |u1 - d0| |u1 - d1|) ∧
      0 ≤ TargetSeqExtraction.repeatsize u0 u1 d0 d1) ∧
    TargetSeqExtraction.repeatsize 0 4 8 12 = 4 ∧
    TargetSeqExtraction.repeatsize 8 12 0 4 = 4 ∧
    (∀ (al : TargetSeqExtraction.Aligners) (Q : Int) (st : TargetSeqExtraction.RunState)
      (rid seq : String) (u0 u1 d0 d1 : Nat) (t : Nat × Nat),
      TargetSeqExtraction.best_hit_q_coords (al.up seq) Q = some (u0, u1) →
      TargetSeqExtraction.best_hit_q_coords (al.down seq) Q = some (d0, d1) →
      TargetSeqExtraction.best_hit_q_coords (al.tgt seq) Q = some t →
      (TargetSeqExtraction.processRead al Q st (rid, seq)).rows =
        st.rows ++
          [(TargetSeqExtraction.repeatsize ((u0 : Nat) : Int) ((u1 : Nat) : Int)
              ((d0 : Nat) : Int) ((d1 : Nat) : Int), rid, seq)]) := by
  refine ⟨?_, by decide, by decide, ?_⟩
  · intro u0 u1 d0 d1
    constructor
    · exact min_assoc (min |u0 - d0| |u0 - d1|) |u1 - d0| |u1 - d1|
    · simp [TargetSeqExtraction.repeatsize, le_min_iff, abs_nonneg]
  · intro al Q st rid seq u0 u1 d0 d1 t h1 h2 h3
    simp [TargetSeqExtraction.processRead, h1, h2, h3]

/-- Witness for repeatsize_min_of_distances: the end-to-end scenario of the
spec — upstream best hit [0,4), downstream best hit [8,12), a present
target hit — appends exactly the row carrying the estimate (which is 4). -/
theorem repeatsize_min_of_distances_witness :
    (TargetSeqExtraction.processRead
        (TargetSeqExtraction.Aligners.mk (fun _ => [Hit.mk 0 4 30])
          (fun _ => [Hit.mk 8 12 30]) (fun _ => [Hit.mk 4 8 30]))
        10 (TargetSeqExtraction.RunState.mk 0 0 []) ("r1", "ACGTACGTACGT")).rows =
      (TargetSeqExtraction.RunState.mk 0 0 []).rows ++
        [(TargetSeqExtraction.repeatsize ((0 : Nat) : Int) ((4 : Nat) : Int)
            ((8 : Nat) : Int) ((12 : Nat) : Int), "r1", "ACGTACGTACGT")] :=
  repeatsize_min_of_distances.2.2.2 _ 10 _ ("r1") ("ACGTACGTACGT") 0 4 8 12 (4, 8)
    (by decide) (by decide) (by decide)

/-- C8: the repeat-size estimate is invariant under swapping the endpoints
of the upstream interval and under swapping the endpoints of the
downstream interval, since all four pairwise absolute distances enter the
minimum. -/
theorem repeatsize_endpoint_swap (u0 u1 d0 d1 : Int) :
    TargetSeqExtraction.repeatsize u0 u1 d0 d1 =
      TargetSeqExtraction.repeatsize u1 u0 d0 d1 ∧
    TargetSeqExtraction.repeatsize u0 u1 d0 d1 =
      TargetSeqExtraction.repeatsize u0 u1 d1 d0 := by
  constructor
  · unfold TargetSeqExtraction.repeatsize
    exact min4_swap_first _ _ _ _
  · unfold TargetSeqExtraction.repeatsize
    exact min4_swap_second _ _ _ _

/-- C5: at end of stream the input counter of Target_seq_extraction.py
equals the number of records yielded by parse_fastq and the pass counter
equals the number of records whose upstream, downstream and target queries
all returned a present result; a rejected read leaves the pass counter
unchanged; and evaluation short-circuits in the order upstream →
downstream → target: when the upstream result is absent the outcome does
not depend on the downstream and target aligners at all, and when the
downstream result is absent it does not depend on the target aligner. -/
theorem target_main_counters (al : TargetSeqExtraction.Aligners) (Q : Int)
    (lines : List String) :
    (TargetSeqExtraction.main_loop al Q lines).count_in = (parse_fastq lines).length ∧
    (TargetSeqExtraction.main_loop al Q lines).count_pass =
      ((parse_fastq lines).filter (TargetSeqExtraction.passes al Q)).length ∧
    (∀ (st : TargetSeqExtraction.RunState) (r : String × String),
      TargetSeqExtraction.passes al Q r = false →
      (TargetSeqExtraction.processRead al Q st r).count_pass = st.count_pass) ∧
    (∀ (al' : TargetSeqExtraction.Aligners) (st : TargetSeqExtraction.RunState)
      (r : String × String),
      al'.up = al.up →
      TargetSeqExtraction.best_hit_q_coords (al.up r.2) Q = none →
      TargetSeqExtraction.processRead al Q st r = TargetSeqExtraction.processRead al' Q st r) ∧
    (∀ (al' : TargetSeqExtraction.Aligners) (st : TargetSeqExtraction.RunState)
      (r : String × String),
      al'.up = al.up → al'.down = al.down →
      TargetSeqExtraction.best_hit_q_coords (al.down r.2) Q = none →
      TargetSeqExtraction.processRead al Q st r = TargetSeqExtraction.processRead al' Q st r) := by
  refine ⟨?_, ?_, ?_, ?_, ?_⟩
  · rw [TargetSeqExtraction.main_loop, TargetSeqExtraction.foldl_count_in]
    simp
  · rw [TargetSeqExtraction.main_loop, TargetSeqExtraction.foldl_count_pass]
    simp
  · intro st r hfail
    rw [TargetSeqExtraction.processRead_count_pass, hfail]
    simp
  · intro al' st r hup hnone
    have hnone' : TargetSeqExtraction.best_hit_q_coords (al'.up r.2) Q = none := by
      rw [hup]; exact hnone
    simp [TargetSeqExtraction.processRead, hnone, hnone']
  · intro al' st r hup hdown hnone
    have hup' : al'.up r.2 = al.up r.2 := by rw [hup]
    have hnone' : TargetSeqExtraction.best_hit_q_coords (al'.down r.2) Q = none := by
      rw [hdown]; exact hnone
    rcases hu : TargetSeqExtraction.best_hit_q_coords (al.up r.2) Q with _ | ⟨u0, u1⟩
    · have hu' : TargetSeqExtraction.best_hit_q_coords (al'.up r.2) Q = none := by
        rw [hup]; exact hu
      simp [TargetSeqExtraction.processRead, hu, hu']
    · have hu' : TargetSeqExtraction.best_hit_q_coords (al'.up r.2) Q = some (u0, u1) := by
        rw [hup]; exact hu
      simp [TargetSeqExtraction.processRead, hu, hu', hnone, hnone']

/-- Witness for target_main_counters: a read whose upstream query is empty
is processed identically under two aligner triples that agree on the
upstream reference but differ on the downstream and target references, so
the later queries are never consulted. -/
theorem target_main_counters_witness :
    TargetSeqExtraction.processRead
      (TargetSeqExtraction.Aligners.mk (fun _ => []) (fun _ => []) (fun _ => []))
      10 (TargetSeqExtraction.RunState.mk 5 7 []) ("r", "ACGT") =
    TargetSeqExtraction.processRead
      (TargetSeqExtraction.Aligners.mk (fun _ => []) (fun _ => [Hit.mk 0 4 60])
        (fun _ => [Hit.mk 0 4 60]))
      10 (TargetSeqExtraction.RunState.mk 5 7 []) ("r", "ACGT") :=
  (target_main_counters
      (TargetSeqExtraction.Aligners.mk (fun _ => []) (fun _ => []) (fun _ => [])) 10 []).2.2.2.1
    (TargetSeqExtraction.Aligners.mk (fun _ => []) (fun _ => [Hit.mk 0 4 60])
      (fun _ => [Hit.mk 0 4 60]))
    (TargetSeqExtraction.RunState.mk 5 7 []) ("r", "ACGT") rfl (by decide)

/-- A line starting with the record marker keeps it as the first character
of its first whitespace token. -/
theorem pyFirstTokenWs_head (s : String) (h : startswith_at s = true) :
    (pyFirstTokenWs s).toList.head? = some '@' := by
  unfold startswith_at at h
  unfold pyFirstTokenWs
  rcases hl : s.toList with _ | ⟨c, cs⟩
  · rw [hl] at h
    cases h
  · rw [hl] at h
    have hc : c = '@' := by
      have := of_decide_eq_true h
      simpa using this
    subst hc
    simp [List.dropWhile_cons, List.takeWhile_cons, Char.isWhitespace]

/-- Removing trailing newlines from a line starting with the record marker
keeps the marker in front. -/
theorem rstripNl_head (cs : List Char) :
    ∃ r, rstripNl ('@' :: cs) = '@' :: r := by
  rcases hr : rstripNl cs with _ | ⟨c, r⟩
  · refine ⟨[], ?_⟩
    simp [rstripNl, hr]
  · refine ⟨c :: r, ?_⟩
    simp [rstripNl, hr]

/-- A line starting with the record marker keeps it as the first character
of its tab-truncated form. -/
theorem pyFirstFieldTab_head (s : String) (h : startswith_at s = true) :
    (pyFirstFieldTab s).toList.head? = some '@' := by
  unfold startswith_at at h
  unfold pyFirstFieldTab
  rcases hl : s.toList with _ | ⟨c, cs⟩
  · rw [hl] at h
    cases h
  · rw [hl] at h
    have hc : c = '@' := by
      have := of_decide_eq_true h
      simpa using this
    subst hc
    obtain ⟨r, hr⟩ := rstripNl_head cs
    rw [hr]
    simp [List.takeWhile_cons]

/-- C6: parse_fastq consumes the input in 4-line blocks; a complete block
whose header carries the record marker yields exactly one record followed
by the parse of the remaining lines; a complete block without the marker
is skipped in its entirety and parsing continues with the next block; and
a truncated trailing block of one, two or three lines yields nothing. -/
theorem parse_fastq_block_policy (hdr sq pl ql : String) (rest : List String)
    (hh : hdr ≠ "") (hs : sq ≠ "") (hp : pl ≠ "") (hq : ql ≠ "") :
    (startswith_at hdr = false →
      parse_fastq (hdr :: sq :: pl :: ql :: rest) = parse_fastq rest) ∧
    (startswith_at hdr = true →
      parse_fastq (hdr :: sq :: pl :: ql :: rest) =
        (pyFirstTokenWs hdr, pyStrip sq) :: parse_fastq rest) ∧
    (∀ l1 : String, parse_fastq [l1] = []) ∧
    (∀ l1 l2 : String, parse_fastq [l1, l2] = []) ∧
    (∀ l1 l2 l3 : String, parse_fastq [l1, l2, l3] = []) := by
  refine ⟨?_, ?_, ?_, ?_, ?_⟩
  · intro hmark
    rw [parse_fastq, if_neg hh, if_neg (by simp [hs, hp, hq]), if_neg (by simp [hmark])]
  · intro hmark
    rw [parse_fastq, if_neg hh, if_neg (by simp [hs, hp, hq]), if_pos (by simp [hmark])]
  · intro l1
    rfl
  · intro l1 l2
    rfl
  · intro l1 l2 l3
    rfl

/-- Witness for parse_fastq_block_policy: a block headed by a marker-less
line is skipped, so the four lines produce the same records as an empty
remainder. -/
theorem parse_fastq_block_policy_witness :
    parse_fastq ["bad", "ACGT", "+", "IIII"] = parse_fastq [] :=
  (parse_fastq_block_policy ("bad") ("ACGT") ("+") ("IIII") []
      (by decide) (by decide) (by decide) (by decide)).1 (by decide)

/-- C4 counterexample: for the header line with id token `@r1`, the
whitespace-split parser yields the read id `@r1` — the record marker is
kept, not dropped, so the id is not the first whitespace token with the
marker character removed (`r1`). -/
theorem read_id_marker_dropped_counterexample :
    parse_fastq ["@r1 x", "ACGT", "+", "IIII"] = [("@r1", "ACGT")] ∧
    ("@r1" : String) ≠ "r1" := by
  constructor
  · decide
  · decide

/-- C4 (amended): for every header line starting with the record marker,
the whitespace-split variant produces as read id the first
whitespace-delimited token of the header with the marker character KEPT,
and the tab-split variant produces the header with trailing newlines
removed and truncated at the first tab, the marker again kept: both ids
still begin with the marker character. -/
theorem read_id_marker_kept (hdr sq pl ql : String) (rest : List String)
    (hmark : startswith_at hdr = true) (hs : sq ≠ "") (hp : pl ≠ "") (hq : ql ≠ "") :
    (parse_fastq (hdr :: sq :: pl :: ql :: rest)).head? =
      some (pyFirstTokenWs hdr, pyStrip sq) ∧
    (ExtractTgtOnly.parse_fastq (hdr :: sq :: pl :: ql :: rest)).head? =
      some (pyFirstFieldTab hdr, pyStrip sq) ∧
    (pyFirstTokenWs hdr).toList.head? = some '@' ∧
    (pyFirstFieldTab hdr).toList.head? = some '@' := by
  have hh : hdr ≠ "" := by
    intro he
    rw [he] at hmark
    exact absurd hmark (by decide)
  refine ⟨?_, ?_, pyFirstTokenWs_head hdr hmark, pyFirstFieldTab_head hdr hmark⟩
  · rw [parse_fastq, if_neg hh, if_neg (by simp [hs, hp, hq]), if_pos (by simp [hmark])]
    rfl
  · rw [ExtractTgtOnly.parse_fastq, if_neg hh, if_neg (by simp [hs, hp, hq]),
      if_pos (by simp [hmark])]
    rfl

/-- Witness for read_id_marker_kept at the concrete record used by the
counterexample. -/
theorem read_id_marker_kept_witness :
    (parse_fastq ["@r1 x", "ACGT", "+", "IIII"]).head? =
      some (pyFirstTokenWs ("@r1 x"), pyStrip ("ACGT")) ∧
    (ExtractTgtOnly.parse_fastq ["@r1 x", "ACGT", "+", "IIII"]).head? =
      some (pyFirstFieldTab ("@r1 x"), pyStrip ("ACGT")) ∧
    (pyFirstTokenWs ("@r1 x")).toList.head? = some '@' ∧
    (pyFirstFieldTab ("@r1 x")).toList.head? = some '@' :=
  read_id_marker_kept ("@r1 x") ("ACGT") ("+") ("IIII") []
    (by decide) (by decide) (by decide) (by decide)

/-- C7: for a read accepted in flank-extraction mode with winning interval
[u, v), the writer emits the upstream record (label rid_up, subsequence
seq[:u]) exactly when its length reaches the minimum-flank-length
threshold, and likewise the downstream record (label rid_down, subsequence
seq[v:]); in particular for u = 0 the empty upstream subsequence is never
emitted once the threshold is at least 1. -/
theorem flank_writer_spec (aln : String → List Hit) (Qmin Smin F : Int)
    (rid seq : String) (u v : Nat)
    (hbest : ExtractTgtFlanks.best_hit_q_coords (aln seq) Qmin Smin = some (u, v)) :
    ((rid ++ "_up", ExtractTgtFlanks.pyTake seq u) ∈
        ExtractTgtFlanks.process_read aln Qmin Smin F rid seq ↔
      F ≤ ((ExtractTgtFlanks.pyTake seq u).length : Int)) ∧
    ((rid ++ "_down", ExtractTgtFlanks.pyDrop seq v) ∈
        ExtractTgtFlanks.process_read aln Qmin Smin F rid seq ↔
      F ≤ ((ExtractTgtFlanks.pyDrop seq v).length : Int)) ∧
    (u = 0 → 1 ≤ F → ∀ x,
      (rid ++ "_up", x) ∉ ExtractTgtFlanks.process_read aln Qmin Smin F rid seq) := by
  have hne := ExtractTgtFlanks.up_ne_down rid
  have hproc : ExtractTgtFlanks.process_read aln Qmin Smin F rid seq =
      ExtractTgtFlanks.flank_records rid seq u v F := by
    simp [ExtractTgtFlanks.process_read, hbest]
  refine ⟨?_, ?_, ?_⟩
  · rw [hproc]
    unfold ExtractTgtFlanks.flank_records
    by_cases hup : F ≤ ((ExtractTgtFlanks.pyTake seq u).length : Int)
    · by_cases hdn : F ≤ ((ExtractTgtFlanks.pyDrop seq v).length : Int)
      · simp [hup, hdn]
      · simp [hup, hdn]
    · by_cases hdn : F ≤ ((ExtractTgtFlanks.pyDrop seq v).length : Int)
      · simp [hup, hdn, Prod.ext_iff]
        intro hc
        exact absurd hc hne
      · simp [hup, hdn]
  · rw [hproc]
    unfold ExtractTgtFlanks.flank_records
    by_cases hup : F ≤ ((ExtractTgtFlanks.pyTake seq u).length : Int)
    · by_cases hdn : F ≤ ((ExtractTgtFlanks.pyDrop seq v).length : Int)
      · simp [hup, hdn]
      · simp [hup, hdn, Prod.ext_iff]
        intro hc
        exact absurd hc.symm hne
    · by_cases hdn : F ≤ ((ExtractTgtFlanks.pyDrop seq v).length : Int)
      · simp [hup, hdn]
      · simp [hup, hdn]
  · intro hu0 hF x
    subst hu0
    rw [hproc]
    unfold ExtractTgtFlanks.flank_records
    have hlen : ((ExtractTgtFlanks.pyTake seq 0).length : Int) = 0 := by
      simp [ExtractTgtFlanks.pyTake]
    rw [if_neg (by omega)]
    by_cases hdn : F ≤ ((ExtractTgtFlanks.pyDrop seq v).length : Int)
    · simp [hdn, Prod.ext_iff]
      intro hc
      exact absurd hc hne
    · simp [hdn]

/-- Witness for flank_writer_spec: the spec's scenario C — target hit
[3,9) on the 12-base read ACGTACGTACGT with min-flank-length 1 — emits
both the upstream record (ACG) and the downstream record (CGT), and with
a hit starting at 0 the upstream record is suppressed. -/
theorem flank_writer_spec_witness :
    ((("r1" : String) ++ "_up", ExtractTgtFlanks.pyTake ("ACGTACGTACGT") 3) ∈
        ExtractTgtFlanks.process_read (fun _ => [Hit.mk 3 9 30]) 10 1 1 ("r1") ("ACGTACGTACGT") ↔
      (1 : Int) ≤ ((ExtractTgtFlanks.pyTake ("ACGTACGTACGT") 3).length : Int)) ∧
    ((("r1" : String) ++ "_down", ExtractTgtFlanks.pyDrop ("ACGTACGTACGT") 9) ∈
        ExtractTgtFlanks.process_read (fun _ => [Hit.mk 3 9 30]) 10 1 1 ("r1") ("ACGTACGTACGT") ↔
      (1 : Int) ≤ ((ExtractTgtFlanks.pyDrop ("ACGTACGTACGT") 9).length : Int)) ∧
    ((3 : Nat) = 0 → (1 : Int) ≤ 1 → ∀ x,
      (("r1" : String) ++ "_up", x) ∉
        ExtractTgtFlanks.process_read (fun _ => [Hit.mk 3 9 30]) 10 1 1 ("r1") ("ACGTACGTACGT")) :=
  flank_writer_spec (fun _ => [Hit.mk 3 9 30]) 10 1 1 ("r1") ("ACGTACGTACGT") 3 9 (by decide)

/-- C9: in read_bounds of yass_yop_to_svg.py a line on which the
alignment-bounds pattern does not match is skipped without any error
effect on the state, and (whenever the number of matching lines does not
exceed the max_al limit, so that the cutoff is not hit early) the computed
triple (qmax, rmax, n_aln) consists of the maxima of the coordinate
fields and the count taken over the matching lines only. -/
theorem yop_read_bounds_spec (m : String → Option (Nat × Nat × Nat × Nat))
    (max_al : Int) :
    (∀ (line : String) (rest : List String) (st : Nat × Nat × Nat),
      m line = none →
      YassYop.read_bounds_loop m max_al (line :: rest) st =
        YassYop.read_bounds_loop m max_al rest st) ∧
    (∀ lines : List String, ((lines.filterMap m).length : Int) ≤ max_al →
      YassYop.read_bounds m lines max_al =
        (((lines.filterMap m).map YassYop.qOf).foldl max 0,
         ((lines.filterMap m).map YassYop.rOf).foldl max 0,
         (lines.filterMap m).length)) := by
  constructor
  · exact fun line rest st h => YassYop.read_bounds_loop_skip m max_al line rest st h
  · intro lines h
    unfold YassYop.read_bounds
    rw [YassYop.read_bounds_loop_eq m max_al lines 0 0 0 (by push_cast; omega)]
    simp

/-- Witness for yop_read_bounds_spec: a matcher that recognises only the
line `a` with coordinates (1,2)(3,4); on input lines [a, b] the second
line is skipped and the bounds are the maxima and count over the single
matching line. -/
theorem yop_read_bounds_spec_witness :
    YassYop.read_bounds (fun s => if s = "a" then some (1, 2, 3, 4) else none)
        ["a", "b"] 5 =
      (((["a", "b"].filterMap
            (fun s => if s = "a" then some (1, 2, 3, 4) else none)).map YassYop.qOf).foldl max 0,
       ((["a", "b"].filterMap
            (fun s => if s = "a" then some (1, 2, 3, 4) else none)).map YassYop.rOf).foldl max 0,
       (["a", "b"].filterMap
            (fun s => if s = "a" then some (1, 2, 3, 4) else none)).length) :=
  (yop_read_bounds_spec (fun s => if s = "a" then some (1, 2, 3, 4) else none) 5).2
    ["a", "b"] (by decide)
